import Mathlib

/-!
Shallow embedding of the loglumen server core (src/server/src/main.rs):
the in-memory event store and its aggregation/query engine.

The store is a `Vec<Event>` behind a lock; we model its contents as a
`List Event` in append order.  `HashMap` accumulators are modelled as
association lists in first-occurrence (insertion) order; every result we
prove about them is independent of iteration order (sums, memberships,
sortedness after the final sorts).  The `chrono::Utc::now()` timestamp is
passed in as an explicit `now : String` argument.
-/

namespace Loglumen

/-- Rust `struct Event` (main.rs lines 11-24).  `data: serde_json::Value` is an
opaque payload the core never inspects, modelled as a `String` carried
through unchanged. -/
structure Event where
  schema_version : Nat
  category : String
  event_type : String
  time : String
  host : String
  host_ipv4 : String
  os : String
  source : String
  severity : String
  message : String
  data : String
deriving Repr, DecidableEq

/-- Model of `HashMap<String, usize>` used for the various count maps. -/
abbrev CountMap := List (String × Nat)

/-- The counting update `*map.entry(k).or_insert(0) += 1` on a `HashMap<String, usize>`. -/
def bump : CountMap → String → CountMap
  | [], k => [(k, 1)]
  | (k', v) :: rest, k =>
    if k' = k then (k', v + 1) :: rest else (k', v) :: bump rest k

/-- Rust `struct CategoryStats` (main.rs lines 27-34). -/
structure CategoryStats where
  category : String
  total_count : Nat
  event_types : CountMap
  severity_counts : CountMap
  recent_events : List Event
deriving Repr, DecidableEq

/-- Rust `struct NodeStats` (main.rs lines 44-52). -/
structure NodeStats where
  host : String
  host_ipv4 : String
  total_events : Nat
  last_event_time : Option String
  categories : CountMap
  severity_counts : CountMap
deriving Repr, DecidableEq

/-- Rust `struct DashboardStats` (main.rs lines 36-42). -/
structure DashboardStats where
  total_events : Nat
  categories : List CategoryStats
  last_updated : String
  nodes : List NodeStats
deriving Repr, DecidableEq

/-- Handler `receive_events` (main.rs lines 60-83): pushes each event of the batch
onto the store in order, and answers with `received = events.len()`.
Returns the new store contents together with the reported count. -/
def receive_events (store : List Event) (events : List Event) :
    List Event × Nat :=
  (events.foldl (fun s e => s ++ [e]) store, events.length)

/-- The node-map key `format!("{}|{}", event.host, event.host_ipv4)`
(main.rs line 99). -/
def nodeKey (e : Event) : String :=
  e.host ++ "|" ++ e.host_ipv4

/-- One step of building `category_map` (main.rs lines 94-97):
`category_map.entry(event.category.clone()).or_insert_with(Vec::new).push(event.clone())`. -/
def insertCat (m : List (String × List Event)) (e : Event) :
    List (String × List Event) :=
  match m with
  | [] => [(e.category, [e])]
  | (k, g) :: rest =>
    if k = e.category then (k, g ++ [e]) :: rest
    else (k, g) :: insertCat rest e

/-- The fresh `NodeStats` inserted by `or_insert_with` (main.rs lines 100-107). -/
def newNode (e : Event) : NodeStats :=
  { host := e.host
    host_ipv4 := e.host_ipv4
    total_events := 0
    last_event_time := none
    categories := []
    severity_counts := [] }

/-- The per-event node update (main.rs lines 109-112). -/
def updateNode (ns : NodeStats) (e : Event) : NodeStats :=
  { ns with
    total_events := ns.total_events + 1
    last_event_time := some e.time
    categories := bump ns.categories e.category
    severity_counts := bump ns.severity_counts e.severity }

/-- One step of building `node_map` (main.rs lines 99-112): fetch or create
the entry for `nodeKey e`, then apply the per-event update. -/
def insertNode (m : List (String × NodeStats)) (e : Event) :
    List (String × NodeStats) :=
  match m with
  | [] => [(nodeKey e, updateNode (newNode e) e)]
  | (k, ns) :: rest =>
    if k = nodeKey e then (k, updateNode ns e) :: rest
    else (k, ns) :: insertNode rest e

/-- Counting loop pattern of main.rs lines 120-129: count occurrences of
`f event` over a group. -/
def countBy (f : Event → String) (events : List Event) : CountMap :=
  events.foldl (fun m e => bump m (f e)) []

/-- Building one `CategoryStats` from a category group (main.rs lines
118-145): totals, `event_type` counts, `severity` counts, and
`events.iter().rev().take(10)` as the recent events. -/
def mkCategoryStats (category : String) (events : List Event) :
    CategoryStats :=
  { category := category
    total_count := events.length
    event_types := countBy Event.event_type events
    severity_counts := countBy Event.severity events
    recent_events := events.reverse.take 10 }

/-- Lexicographic comparison of character sequences: Rust's `String::cmp`
compares UTF-8 bytes lexicographically, which coincides with
code-point-wise lexicographic order. -/
def lexLEb : List Char → List Char → Bool
  | [], _ => true
  | _ :: _, [] => false
  | a :: as, b :: bs => decide (a < b) || (a == b && lexLEb as bs)

theorem lexLEb_cons_iff {a b : Char} {as bs : List Char} :
    lexLEb (a :: as) (b :: bs) = true ↔
      a < b ∨ (a = b ∧ lexLEb as bs = true) := by
  simp [lexLEb]

theorem lexLEb_refl : ∀ as : List Char, lexLEb as as = true
  | [] => rfl
  | a :: as => by simp [lexLEb_cons_iff, lexLEb_refl as]

theorem lexLEb_total : ∀ as bs : List Char,
    lexLEb as bs = true ∨ lexLEb bs as = true
  | [], _ => Or.inl rfl
  | _ :: _, [] => Or.inr rfl
  | a :: as, b :: bs => by
    rcases lt_trichotomy a b with h | h | h
    · exact Or.inl (lexLEb_cons_iff.mpr (Or.inl h))
    · subst h
      rcases lexLEb_total as bs with ih | ih
      · exact Or.inl (lexLEb_cons_iff.mpr (Or.inr ⟨rfl, ih⟩))
      · exact Or.inr (lexLEb_cons_iff.mpr (Or.inr ⟨rfl, ih⟩))
    · exact Or.inr (lexLEb_cons_iff.mpr (Or.inl h))

theorem lexLEb_trans : ∀ as bs cs : List Char,
    lexLEb as bs = true → lexLEb bs cs = true → lexLEb as cs = true
  | [], _, _, _, _ => rfl
  | _ :: _, [], _, h, _ => by simp [lexLEb] at h
  | _ :: _, _ :: _, [], _, h => by simp [lexLEb] at h
  | a :: as, b :: bs, c :: cs, h1, h2 => by
    rcases lexLEb_cons_iff.mp h1 with hab | ⟨hab, htab⟩ <;>
      rcases lexLEb_cons_iff.mp h2 with hbc | ⟨hbc, htbc⟩
    · exact lexLEb_cons_iff.mpr (Or.inl (hab.trans hbc))
    · exact lexLEb_cons_iff.mpr (Or.inl (hbc ▸ hab))
    · exact lexLEb_cons_iff.mpr (Or.inl (hab ▸ hbc))
    · exact lexLEb_cons_iff.mpr
        (Or.inr ⟨hab.trans hbc, lexLEb_trans as bs cs htab htbc⟩)

theorem lexLEb_antisymm : ∀ as bs : List Char,
    lexLEb as bs = true → lexLEb bs as = true → as = bs
  | [], [], _, _ => rfl
  | [], _ :: _, _, h => by simp [lexLEb] at h
  | _ :: _, [], h, _ => by simp [lexLEb] at h
  | a :: as, b :: bs, h1, h2 => by
    rcases lexLEb_cons_iff.mp h1 with hab | ⟨hab, htab⟩ <;>
      rcases lexLEb_cons_iff.mp h2 with hba | ⟨hba, htba⟩
    · exact absurd hba (lt_asymm hab)
    · exact absurd hab (hba ▸ lt_irrefl b)
    · exact absurd hba (hab ▸ lt_irrefl a)
    · exact hab ▸ congrArg (a :: ·) (lexLEb_antisymm as bs htab htba)

/-- The string ordering used by the two sorts: `String::cmp` in Rust,
byte-wise lexicographic. -/
def strLE (s t : String) : Prop :=
  lexLEb s.data t.data = true

instance : DecidableRel strLE :=
  fun s t => inferInstanceAs (Decidable (lexLEb s.data t.data = true))

theorem strLE_total (s t : String) : strLE s t ∨ strLE t s :=
  lexLEb_total s.data t.data

theorem strLE_trans {s t u : String} :
    strLE s t → strLE t u → strLE s u :=
  lexLEb_trans s.data t.data u.data

theorem strLE_antisymm {s t : String} (h1 : strLE s t) (h2 : strLE t s) :
    s = t := by
  cases s with
  | mk d1 => cases t with
    | mk d2 => exact congrArg String.mk (lexLEb_antisymm d1 d2 h1 h2)

/-- The category comparator `a.category.cmp(&b.category)` (main.rs line
149) as a "may come before" relation. -/
def catLE (a b : CategoryStats) : Prop :=
  strLE a.category b.category

instance : DecidableRel catLE :=
  fun a b => inferInstanceAs (Decidable (strLE a.category b.category))

instance : IsTotal CategoryStats catLE :=
  ⟨fun a b => strLE_total a.category b.category⟩

instance : IsTrans CategoryStats catLE :=
  ⟨fun _ _ _ hab hbc => strLE_trans hab hbc⟩

/-- The node comparator
`b.total_events.cmp(&a.total_events).then_with(|| a.host.cmp(&b.host))`
(main.rs line 152) as a "may come before" relation: `x` may precede `y`
exactly when the comparator does not answer `Greater`. -/
def nodeLE (x y : NodeStats) : Prop :=
  y.total_events < x.total_events ∨
    (y.total_events = x.total_events ∧ strLE x.host y.host)

instance : DecidableRel nodeLE :=
  fun x y =>
    inferInstanceAs (Decidable (y.total_events < x.total_events ∨
      (y.total_events = x.total_events ∧ strLE x.host y.host)))

instance : IsTotal NodeStats nodeLE := by
  constructor
  intro x y
  rcases Nat.lt_trichotomy y.total_events x.total_events with h | h | h
  · exact Or.inl (Or.inl h)
  · rcases strLE_total x.host y.host with hh | hh
    · exact Or.inl (Or.inr ⟨h, hh⟩)
    · exact Or.inr (Or.inr ⟨h.symm, hh⟩)
  · exact Or.inr (Or.inl h)

instance : IsTrans NodeStats nodeLE := by
  constructor
  intro x y z hxy hyz
  rcases hxy with h1 | ⟨h1, h1'⟩ <;> rcases hyz with h2 | ⟨h2, h2'⟩
  · exact Or.inl (h2.trans h1)
  · exact Or.inl (h2 ▸ h1)
  · exact Or.inl (h1 ▸ h2)
  · exact Or.inr ⟨h2.trans h1, strLE_trans h1' h2'⟩

/-- Handler `get_stats` (main.rs lines 86-162): one pass over the store building
`category_map` and `node_map`, then per-category stats, then both sorts,
then the `DashboardStats` with `total_events = store.len()` and the
query-time timestamp.  Rust's `sort_by` is a stable sort; for a total
preorder comparator every stable sort produces the same list, so the
(stable) `insertionSort` models it faithfully. -/
def get_stats (store : List Event) (now : String) : DashboardStats :=
  let maps := store.foldl
    (fun (m : List (String × List Event) × List (String × NodeStats)) e =>
      (insertCat m.1 e, insertNode m.2 e)) ([], [])
  let categories := maps.1.map (fun p => mkCategoryStats p.1 p.2)
  let nodes := maps.2.map Prod.snd
  { total_events := store.length
    categories := List.insertionSort catLE categories
    last_updated := now
    nodes := List.insertionSort nodeLE nodes }

/-- Handler `get_events_for_host` (main.rs lines 171-189), after percent-decoding
(a transport concern): filter the store on `event.host == decoded`, then
reverse so the latest events come first. -/
def get_events_for_host (store : List Event) (decoded : String) :
    List Event :=
  (store.filter (fun e => e.host == decoded)).reverse

/-- One sequential `receive_events` call: feed the current store to the
handler, record the reported count. -/
def runStep (acc : List Event × List Nat) (b : List Event) :
    List Event × List Nat :=
  ((receive_events acc.1 b).1, acc.2 ++ [(receive_events acc.1 b).2])

/-- A run of `N` sequential `receive_events` calls starting from the empty store:
the final store contents together with the list of reported counts, in
call order. -/
def runBatches (batches : List (List Event)) : List Event × List Nat :=
  batches.foldl runStep ([], [])

/-! ### Lemmas about the store -/

theorem foldl_push (batch : List Event) :
    ∀ s : List Event, batch.foldl (fun s e => s ++ [e]) s = s ++ batch := by
  induction batch with
  | nil => intro s; simp
  | cons e rest ih =>
    intro s
    rw [List.foldl_cons, ih (s ++ [e])]
    simp

theorem receive_events_eq (store batch : List Event) :
    receive_events store batch = (store ++ batch, batch.length) := by
  unfold receive_events
  rw [foldl_push]

theorem runStep_eq (acc : List Event × List Nat) (b : List Event) :
    runStep acc b = (acc.1 ++ b, acc.2 ++ [b.length]) := by
  simp [runStep, receive_events_eq]

theorem runBatches_general (batches : List (List Event)) :
    ∀ (s : List Event) (rs : List Nat),
      batches.foldl runStep (s, rs)
      = (s ++ batches.flatten, rs ++ batches.map List.length) := by
  induction batches with
  | nil => intro s rs; simp
  | cons b bs ih =>
    intro s rs
    rw [List.foldl_cons, runStep_eq]
    rw [ih (s ++ b) (rs ++ [b.length])]
    simp

/-! ### Lemmas about the aggregation pass -/

/-- The category map accumulated over the store, on its own. -/
def catFold (store : List Event) : List (String × List Event) :=
  store.foldl insertCat []

/-- The node map accumulated over the store, on its own. -/
def nodeFold (store : List Event) : List (String × NodeStats) :=
  store.foldl insertNode []

theorem foldl_prod {α β γ : Type _} (f : α → γ → α) (g : β → γ → β) :
    ∀ (l : List γ) (a : α) (b : β),
      l.foldl (fun p e => (f p.1 e, g p.2 e)) (a, b) =
        (l.foldl f a, l.foldl g b) := by
  intro l
  induction l with
  | nil => intro a b; rfl
  | cons e rest ih =>
    intro a b
    rw [List.foldl_cons, List.foldl_cons, List.foldl_cons]
    exact ih (f a e) (g b e)

/-- The single pass of `get_stats` splits into the two independent map
builds. -/
theorem get_stats_eq (store : List Event) (now : String) :
    get_stats store now =
      { total_events := store.length
        categories := List.insertionSort catLE
          ((catFold store).map fun p => mkCategoryStats p.1 p.2)
        last_updated := now
        nodes := List.insertionSort nodeLE ((nodeFold store).map Prod.snd) } := by
  unfold get_stats catFold nodeFold
  rw [foldl_prod insertCat insertNode store [] []]

theorem catFold_append (l : List Event) (e : Event) :
    catFold (l ++ [e]) = insertCat (catFold l) e := by
  unfold catFold
  rw [List.foldl_append]
  rfl

theorem nodeFold_append (l : List Event) (e : Event) :
    nodeFold (l ++ [e]) = insertNode (nodeFold l) e := by
  unfold nodeFold
  rw [List.foldl_append]
  rfl

theorem insertCat_sizes (e : Event) :
    ∀ m : List (String × List Event),
      ((insertCat m e).map (fun p => p.2.length)).sum =
        (m.map (fun p => p.2.length)).sum + 1 := by
  intro m
  induction m with
  | nil => simp [insertCat]
  | cons q rest ih =>
    obtain ⟨k, g⟩ := q
    simp only [insertCat]
    by_cases hk : k = e.category
    · rw [if_pos hk]
      simp
      omega
    · rw [if_neg hk]
      simp only [List.map_cons, List.sum_cons, ih]
      omega

theorem insertNode_totals (e : Event) :
    ∀ m : List (String × NodeStats),
      ((insertNode m e).map (fun p => p.2.total_events)).sum =
        (m.map (fun p => p.2.total_events)).sum + 1 := by
  intro m
  induction m with
  | nil => simp [insertNode, updateNode, newNode]
  | cons q rest ih =>
    obtain ⟨k, ns⟩ := q
    simp only [insertNode]
    by_cases hk : k = nodeKey e
    · rw [if_pos hk]
      simp [updateNode]
      omega
    · rw [if_neg hk]
      simp only [List.map_cons, List.sum_cons, ih]
      omega

theorem catFold_sizes (store : List Event) :
    ((catFold store).map (fun p => p.2.length)).sum = store.length := by
  induction store using List.reverseRecOn with
  | nil => rfl
  | append_singleton l e ih =>
    rw [catFold_append, insertCat_sizes, ih]
    simp

theorem nodeFold_totals (store : List Event) :
    ((nodeFold store).map (fun p => p.2.total_events)).sum = store.length := by
  induction store using List.reverseRecOn with
  | nil => rfl
  | append_singleton l e ih =>
    rw [nodeFold_append, insertNode_totals, ih]
    simp

theorem insertCat_keys (e : Event) :
    ∀ m : List (String × List Event),
      (insertCat m e).map Prod.fst =
        if e.category ∈ m.map Prod.fst then m.map Prod.fst
        else m.map Prod.fst ++ [e.category] := by
  intro m
  induction m with
  | nil => simp [insertCat]
  | cons q rest ih =>
    obtain ⟨k, g⟩ := q
    simp only [insertCat]
    by_cases hk : k = e.category
    · subst hk
      simp
    · rw [if_neg hk]
      simp only [List.map_cons]
      rw [ih]
      by_cases hm : e.category ∈ rest.map Prod.fst
      · rw [if_pos hm, if_pos (List.mem_cons_of_mem k hm)]
      · have hnk : e.category ∉ k :: rest.map Prod.fst := by
          intro hc
          rcases List.mem_cons.mp hc with h1 | h1
          · exact hk h1.symm
          · exact hm h1
        rw [if_neg hm, if_neg hnk]
        simp

theorem insertCat_keys_nodup {e : Event} {m : List (String × List Event)}
    (h : (m.map Prod.fst).Nodup) : ((insertCat m e).map Prod.fst).Nodup := by
  rw [insertCat_keys]
  by_cases hm : e.category ∈ m.map Prod.fst
  · rw [if_pos hm]
    exact h
  · rw [if_neg hm]
    rw [List.nodup_append]
    refine ⟨h, List.nodup_singleton _, ?_⟩
    intro k hk hk'
    rcases List.mem_singleton.mp hk' with rfl
    exact hm hk

/-- Where an entry of `insertCat m e` comes from, assuming the keys of `m`
are distinct (as they always are for the accumulated map). -/
theorem insertCat_mem_cases {e : Event} {p : String × List Event} :
    ∀ {m : List (String × List Event)},
      (m.map Prod.fst).Nodup → p ∈ insertCat m e →
      (p ∈ m ∧ p.1 ≠ e.category) ∨
      (∃ g, (e.category, g) ∈ m ∧ p = (e.category, g ++ [e])) ∨
      (p = (e.category, [e]) ∧ e.category ∉ m.map Prod.fst) := by
  intro m
  induction m with
  | nil =>
    intro _ hp
    simp [insertCat] at hp
    exact Or.inr (Or.inr (by simp [hp]))
  | cons q rest ih =>
    intro hnd hp
    obtain ⟨k, g⟩ := q
    have hndr : (rest.map Prod.fst).Nodup := by
      simp only [List.map_cons, List.nodup_cons] at hnd
      exact hnd.2
    have hknr : k ∉ rest.map Prod.fst := by
      simp only [List.map_cons, List.nodup_cons] at hnd
      exact hnd.1
    simp only [insertCat] at hp
    by_cases hk : k = e.category
    · rw [if_pos hk] at hp
      rcases List.mem_cons.mp hp with h | h
      · subst hk
        exact Or.inr (Or.inl ⟨g, List.mem_cons_self _ _, h⟩)
      · have hpk : p.1 ≠ e.category := by
          intro hc
          apply hknr
          rw [hk, ← hc]
          exact List.mem_map_of_mem Prod.fst h
        exact Or.inl ⟨List.mem_cons_of_mem _ h, hpk⟩
    · rw [if_neg hk] at hp
      rcases List.mem_cons.mp hp with h | h
      · subst h
        exact Or.inl ⟨List.mem_cons_self _ _, fun hc => hk hc⟩
      · rcases ih hndr h with ⟨hm, hne⟩ | ⟨g', hg', hpe⟩ | ⟨hpe, hnm⟩
        · exact Or.inl ⟨List.mem_cons_of_mem _ hm, hne⟩
        · exact Or.inr (Or.inl ⟨g', List.mem_cons_of_mem _ hg', hpe⟩)
        · refine Or.inr (Or.inr ⟨hpe, ?_⟩)
          intro hc
          rcases List.mem_cons.mp hc with h1 | h1
          · exact hk h1.symm
          · exact hnm h1

/-- The accumulated category map: distinct keys, each group is exactly the
events of its category in append order, and absent keys have no events. -/
theorem catFold_groups (store : List Event) :
    ((catFold store).map Prod.fst).Nodup ∧
    (∀ p ∈ catFold store, p.2 = store.filter (fun x => x.category == p.1)) ∧
    (∀ k, k ∉ (catFold store).map Prod.fst →
      store.filter (fun x => x.category == k) = []) := by
  induction store using List.reverseRecOn with
  | nil =>
    refine ⟨by simp [catFold], ?_, ?_⟩ <;> simp [catFold]
  | append_singleton l e ih =>
    obtain ⟨hnd, hmem, habs⟩ := ih
    rw [catFold_append]
    refine ⟨insertCat_keys_nodup hnd, ?_, ?_⟩
    · intro p hp
      rcases insertCat_mem_cases hnd hp with ⟨hm, hne⟩ | ⟨g, hg, rfl⟩ | ⟨rfl, hnm⟩
      · have hfe : (e.category == p.1) = false := by
          simp only [beq_eq_false_iff_ne, ne_eq]
          exact fun hc => hne hc.symm
        rw [List.filter_append, hmem p hm]
        simp [List.filter_cons, hfe]
      · have hg2 := hmem _ hg
        rw [List.filter_append, ← hg2]
        simp [List.filter_cons]
      · rw [List.filter_append, habs _ hnm]
        simp [List.filter_cons]
    · intro k hk
      have hkm : k ∉ (catFold l).map Prod.fst := by
        intro hc
        apply hk
        rw [insertCat_keys]
        by_cases hm : e.category ∈ (catFold l).map Prod.fst
        · rw [if_pos hm]
          exact hc
        · rw [if_neg hm]
          exact List.mem_append_left _ hc
      have hke : k ≠ e.category := by
        intro hc
        apply hk
        rw [insertCat_keys]
        by_cases hm : e.category ∈ (catFold l).map Prod.fst
        · rw [if_pos hm]
          exact hc ▸ hm
        · rw [if_neg hm]
          subst hc
          exact List.mem_append_right _ (List.mem_singleton_self _)
      have hfe : (e.category == k) = false := by
        simp only [beq_eq_false_iff_ne, ne_eq]
        exact fun hc => hke hc.symm
      rw [List.filter_append, habs k hkm]
      simp [List.filter_cons, hfe]

/-- Every entry ever placed in the node map has its `last_event_time`
assigned. -/
theorem insertNode_isSome {e : Event} :
    ∀ {m : List (String × NodeStats)},
      (∀ p ∈ m, p.2.last_event_time.isSome = true) →
      ∀ p ∈ insertNode m e, p.2.last_event_time.isSome = true := by
  intro m
  induction m with
  | nil =>
    intro _ p hp
    simp only [insertNode, List.mem_singleton] at hp
    subst hp
    simp [updateNode]
  | cons q rest ih =>
    intro hm p hp
    obtain ⟨k, ns⟩ := q
    simp only [insertNode] at hp
    by_cases hk : k = nodeKey e
    · rw [if_pos hk] at hp
      rcases List.mem_cons.mp hp with h | h
      · subst h
        simp [updateNode]
      · exact hm p (List.mem_cons_of_mem _ h)
    · rw [if_neg hk] at hp
      rcases List.mem_cons.mp hp with h | h
      · subst h
        exact hm _ (List.mem_cons_self _ _)
      · exact ih (fun q hq => hm q (List.mem_cons_of_mem _ hq)) p h

theorem nodeFold_isSome (store : List Event) :
    ∀ p ∈ nodeFold store, p.2.last_event_time.isSome = true := by
  induction store using List.reverseRecOn with
  | nil =>
    intro p hp
    simp [nodeFold] at hp
  | append_singleton l e ih =>
    rw [nodeFold_append]
    exact insertNode_isSome ih

/-! ### Concrete fixtures for witnesses and counterexamples -/

/-- A representative well-formed event. -/
def evNet : Event :=
  { schema_version := 1, category := "net", event_type := "conn",
    time := "T1", host := "h1", host_ipv4 := "10.0.0.1", os := "linux",
    source := "agent", severity := "low", message := "hello",
    data := "payload" }

/-- The `CategoryStats` that `get_stats [evNet]` produces for "net". -/
def catNet : CategoryStats :=
  { category := "net", total_count := 1, event_types := [("conn", 1)],
    severity_counts := [("low", 1)], recent_events := [evNet] }

/-- The `NodeStats` that `get_stats [evNet]` produces for `("h1", "10.0.0.1")`. -/
def nodeNet : NodeStats :=
  { host := "h1", host_ipv4 := "10.0.0.1", total_events := 1,
    last_event_time := some ("T1"), categories := [("net", 1)],
    severity_counts := [("low", 1)] }

/-- An event whose host contains the `|` separator character used by the
node-map key. -/
def evPipeA : Event :=
  { schema_version := 1, category := "net", event_type := "conn",
    time := "T1", host := "a|b", host_ipv4 := "c", os := "linux",
    source := "agent", severity := "low", message := "m1", data := "d1" }

/-- An event with a `(host, host_ipv4)` pair different from `evPipeA`'s but
with the same `host|host_ipv4` concatenation, `"a|b|c"`. -/
def evPipeB : Event :=
  { schema_version := 1, category := "net", event_type := "conn",
    time := "T2", host := "a", host_ipv4 := "b|c", os := "linux",
    source := "agent", severity := "high", message := "m2", data := "d2" }

/-- Two events sharing one host with two different addresses: two node
groups with equal totals and equal hosts. -/
def evTieA : Event :=
  { schema_version := 1, category := "net", event_type := "conn",
    time := "T1", host := "h", host_ipv4 := "10.0.0.1", os := "linux",
    source := "agent", severity := "low", message := "m1", data := "d1" }

def evTieB : Event :=
  { schema_version := 1, category := "net", event_type := "conn",
    time := "T2", host := "h", host_ipv4 := "10.0.0.2", os := "linux",
    source := "agent", severity := "high", message := "m2", data := "d2" }

/-- Strict version of the string order: strictly ascending. -/
def strLT (s t : String) : Prop :=
  strLE s t ∧ s ≠ t

instance : DecidableRel strLT :=
  fun s t => inferInstanceAs (Decidable (strLE s t ∧ s ≠ t))

/-! ### The claims -/

/-- Claim C1.  The claim states that two events land in the same node group
exactly when their `(host, host_ipv4)` pairs are equal.  The code keys the
node map by the concatenation `host|host_ipv4`, which collides when a host
contains `|`: here `evPipeA` and `evPipeB` have different pairs but the
same key `"a|b|c"`, and `get_stats` merges them into a single `NodeStats`
counting both events, where the claim demands two groups. -/
theorem claim_C1_pipe_collision :
    (evPipeA.host, evPipeA.host_ipv4) ≠ (evPipeB.host, evPipeB.host_ipv4) ∧
    nodeKey evPipeA = nodeKey evPipeB ∧
    (get_stats [evPipeA, evPipeB] "NOW").nodes.length = 1 ∧
    ((get_stats [evPipeA, evPipeB] "NOW").nodes.map NodeStats.total_events)
      = [2] := by
  decide

/-- Claim C2: after `N` sequential `receive_events` calls the store equals
the concatenation of the batches in call order, its length is the sum of
the batch lengths, and each call reported exactly the length of its
batch. -/
theorem claim_C2_append_concat (batches : List (List Event)) :
    (runBatches batches).1 = batches.flatten ∧
    (runBatches batches).1.length = (batches.map List.length).sum ∧
    (runBatches batches).2 = batches.map List.length := by
  unfold runBatches
  rw [runBatches_general batches [] []]
  refine ⟨by simp, ?_, by simp⟩
  simp [List.length_flatten]

/-- Claim C3: for every store contents, the sum of `total_count` over the
category statistics and the sum of `total_events` over the node statistics
both equal `total_events` of the dashboard. -/
theorem claim_C3_total_conservation (store : List Event) (now : String) :
    ((get_stats store now).categories.map CategoryStats.total_count).sum =
      (get_stats store now).total_events ∧
    ((get_stats store now).nodes.map NodeStats.total_events).sum =
      (get_stats store now).total_events := by
  rw [get_stats_eq]
  dsimp only
  constructor
  · have hperm :=
      (List.perm_insertionSort catLE
        ((catFold store).map fun p => mkCategoryStats p.1 p.2)).map
        CategoryStats.total_count
    rw [hperm.sum_eq, List.map_map]
    exact catFold_sizes store
  · have hperm :=
      (List.perm_insertionSort nodeLE ((nodeFold store).map Prod.snd)).map
        NodeStats.total_events
    rw [hperm.sum_eq, List.map_map]
    exact nodeFold_totals store

/-- Claim C4: every category entry of the dashboard carries as
`recent_events` the last (up to) 10 events of its category in append
order, reversed so the most recently appended comes first; its length is
`min 10 total_count` and its head is the most recently appended event of
the category. -/
theorem claim_C4_recent_events (store : List Event) (now : String)
    (c : CategoryStats) (hc : c ∈ (get_stats store now).categories) :
    c.recent_events =
      ((store.filter (fun e => e.category == c.category)).drop
        ((store.filter (fun e => e.category == c.category)).length -
          10)).reverse ∧
    c.recent_events.length = min 10 c.total_count ∧
    c.recent_events.head? =
      (store.filter (fun e => e.category == c.category)).getLast? := by
  rw [get_stats_eq] at hc
  dsimp only at hc
  have hc2 : c ∈ (catFold store).map fun p => mkCategoryStats p.1 p.2 :=
    ((List.perm_insertionSort catLE _).mem_iff).mp hc
  rcases List.mem_map.mp hc2 with ⟨p, hp, rfl⟩
  have hgroup := (catFold_groups store).2.1 p hp
  dsimp only [mkCategoryStats]
  rw [← hgroup]
  refine ⟨List.take_reverse, ?_, ?_⟩
  · simp [List.length_take, inf_eq_min]
  · simp [List.head?_take, List.head?_reverse]

theorem claim_C4_witness :
    catNet ∈ (get_stats [evNet] "NOW").categories ∧
    (catNet.recent_events =
      (([evNet].filter (fun e => e.category == catNet.category)).drop
        (([evNet].filter (fun e => e.category == catNet.category)).length -
          10)).reverse ∧
     catNet.recent_events.length = min 10 catNet.total_count ∧
     catNet.recent_events.head? =
       ([evNet].filter (fun e => e.category == catNet.category)).getLast?) :=
  ⟨by decide, claim_C4_recent_events [evNet] "NOW" catNet (by decide)⟩

/-- Claim C5, counterexample to the claim as stated.  With two events on
the same host under two addresses, the two node groups tie on
`total_events` with equal hosts, so the ties cannot be ordered *strictly*
ascending by host. -/
theorem claim_C5_counterexample :
    ¬ (get_stats [evTieA, evTieB] "NOW").nodes.Pairwise
      (fun x y => y.total_events < x.total_events ∨
        (y.total_events = x.total_events ∧ strLT x.host y.host)) := by
  decide

/-- Claim C5, amended: categories are strictly ascending by name with no
duplicates; nodes are non-increasing by `total_events`, and on ties the
hosts are non-decreasing (not necessarily strictly, since distinct
`(host, host_ipv4)` groups may share a host). -/
theorem claim_C5_sorted_amended (store : List Event) (now : String) :
    (get_stats store now).categories.Pairwise
      (fun a b => strLT a.category b.category) ∧
    (get_stats store now).nodes.Pairwise
      (fun x y => y.total_events ≤ x.total_events ∧
        (y.total_events = x.total_events → strLE x.host y.host)) := by
  rw [get_stats_eq]
  dsimp only
  constructor
  · have hsort : (List.insertionSort catLE
        ((catFold store).map fun p => mkCategoryStats p.1 p.2)).Pairwise
          catLE :=
      List.sorted_insertionSort catLE _
    have hnodup : ((List.insertionSort catLE
        ((catFold store).map fun p => mkCategoryStats p.1 p.2)).map
          (fun c => c.category)).Nodup := by
      refine ((List.perm_insertionSort catLE _).map
        (fun c => c.category)).nodup_iff.mpr ?_
      rw [List.map_map]
      exact (catFold_groups store).1
    have hne := List.pairwise_map.mp hnodup
    exact (hsort.and hne).imp (fun h => ⟨h.1, h.2⟩)
  · refine (List.sorted_insertionSort nodeLE _).imp ?_
    intro x y hxy
    rcases hxy with hlt | ⟨heq, hle⟩
    · exact ⟨Nat.le_of_lt hlt, fun hc => absurd (hc ▸ hlt) (lt_irrefl _)⟩
    · exact ⟨Nat.le_of_eq heq, fun _ => hle⟩

/-- Claim C6.  The claim reads the node groups as `(host, host_ipv4)`
groups.  At the `|`-collision input, the single node presented for
host `"a|b"`, address `"c"` reports `last_event_time = "T2"`, the time of
`evPipeB` — an event that does not belong to the `("a|b", "c")` pair
group, whose last-appended event has time `"T1"`. -/
theorem claim_C6_pipe_collision_last_time :
    ((get_stats [evPipeA, evPipeB] "NOW").nodes.map
      (fun ns => (ns.host, ns.host_ipv4, ns.last_event_time))) =
        [("a|b", "c", some ("T2"))] ∧
    (([evPipeA, evPipeB].filter
      (fun e => e.host == "a|b" && e.host_ipv4 == "c")).map Event.time) =
        ["T1"] := by
  decide

/-- Claim C7: the per-host query returns exactly the stored events whose
`host` equals the decoded query (case-sensitive string equality, the
events themselves with all fields unchanged), in reverse append order,
and returns the empty sequence when nothing matches. -/
theorem claim_C7_host_filter (store : List Event) (h : String) :
    (∀ e, e ∈ get_events_for_host store h ↔ e ∈ store ∧ e.host = h) ∧
    get_events_for_host store h =
      (store.filter (fun e => decide (e.host = h))).reverse ∧
    ((∀ e ∈ store, e.host ≠ h) → get_events_for_host store h = []) := by
  unfold get_events_for_host
  refine ⟨?_, ?_, ?_⟩
  · intro e
    simp [List.mem_reverse, List.mem_filter]
  · refine congrArg List.reverse (List.filter_congr ?_)
    intro e _
    by_cases hc : e.host = h <;> simp [hc]
  · intro hnone
    rw [List.reverse_eq_nil_iff, List.filter_eq_nil_iff]
    intro e he
    simp [hnone e he]

theorem claim_C7_witness :
    (∀ e ∈ ([evNet] : List Event), e.host ≠ "nope") ∧
    get_events_for_host [evNet] "nope" = [] :=
  ⟨by decide, (claim_C7_host_filter [evNet] "nope").2.2 (by decide)⟩

/-- Claim C8: on the empty store, `get_stats` succeeds and returns zero
total events, no categories, no nodes, and the query-time timestamp still
attached in `last_updated`. -/
theorem claim_C8_empty_store (now : String) :
    get_stats [] now =
      { total_events := 0, categories := [], last_updated := now,
        nodes := [] } := rfl

/-- Claim C10: every `NodeStats` present in a computed dashboard has a
non-`none` `last_event_time`, although the field's type is optional. -/
theorem claim_C10_last_event_time_some (store : List Event) (now : String)
    (ns : NodeStats) (h : ns ∈ (get_stats store now).nodes) :
    ns.last_event_time.isSome = true := by
  rw [get_stats_eq] at h
  dsimp only at h
  have h2 : ns ∈ (nodeFold store).map Prod.snd :=
    ((List.perm_insertionSort nodeLE _).mem_iff).mp h
  rcases List.mem_map.mp h2 with ⟨p, hp, rfl⟩
  exact nodeFold_isSome store p hp

theorem claim_C10_witness :
    nodeNet ∈ (get_stats [evNet] "NOW").nodes ∧
    nodeNet.last_event_time.isSome = true :=
  ⟨by decide, claim_C10_last_event_time_some [evNet] "NOW" nodeNet (by decide)⟩

end Loglumen
